import Mathlib

/-!
Verification of the LaTerM terminal LaTeX pipeline.

This file shallowly embeds the core of the repository:
  * `LatexHashMap` (latex-hashmap.ts): hash generation, placeholder codec,
    bounded content store over JavaScript `Map` insertion-order semantics;
  * `LatexProcessor` (latex-processor.ts): the `terminal.write` hook with
    alternate-screen gating and the `processLatex` stream pipeline
    (display pass, inline pass, incomplete-tail buffering, stale guard);
  * `OverlayManager` (overlay-manager.ts): the visible-grid sweep that
    creates and removes overlays keyed by placeholder hashes.

External collaborators (KaTeX rendering and DOM pixel measurement) are
abstracted as an environment `Env` supplying a render/measure oracle,
exactly at the boundary where the source delegates to them.  Recursions
over strings use an explicit fuel argument initialised to the string
length so that all definitions compute by kernel reduction.
-/

/-- JavaScript regex `[a-f0-9]`, the token alphabet of identifiers. -/
def hexDigit (c : Char) : Bool :=
  ('a' ≤ c && c ≤ 'f') || ('0' ≤ c && c ≤ '9')

/-- JavaScript regex class `\s` restricted to the code units that can
actually occur in this pipeline (space, tab, LF, CR, VT, FF). -/
def jsWhitespace (c : Char) : Bool :=
  c = ' ' || c = '\t' || c = '\n' || c = '\r' || c = '\x0b' || c = '\x0c'

/-- JavaScript `ToInt32`: wrap an integer into the signed 32-bit range. -/
def toInt32 (n : Int) : Int :=
  (n + 2 ^ 31) % 2 ^ 32 - 2 ^ 31

/-- JavaScript `String.prototype.includes` on char lists. -/
def containsSub (cs pat : List Char) : Bool :=
  cs.tails.any (fun t => pat.isPrefixOf t)

/-- JavaScript `String.prototype.lastIndexOf` for a single character:
index of the rightmost occurrence, `-1` if absent. -/
def lastIndexOfChar (cs : List Char) (c : Char) : Int :=
  match cs with
  | [] => -1
  | x :: xs =>
    let r := lastIndexOfChar xs c
    if r ≠ -1 then r + 1 else if x = c then 0 else -1

/-- JavaScript `String.prototype.lastIndexOf` for a pattern string:
start index of the rightmost occurrence, `-1` if absent. -/
def lastIndexOfStr (cs pat : List Char) : Int :=
  match cs with
  | [] => if pat.isPrefixOf ([] : List Char) then 0 else -1
  | x :: xs =>
    let r := lastIndexOfStr xs pat
    if r ≠ -1 then r + 1 else if pat.isPrefixOf (x :: xs) then 0 else -1

/-- JavaScript `s.substring(start, stop)` for the guarded uses in the
source where `0 ≤ start ≤ stop` (clamping via `Int.toNat`). -/
def jsSubstring (cs : List Char) (start stop : Int) : List Char :=
  (cs.take stop.toNat).drop start.toNat

/-- `LatexEntry` of latex-hashmap.ts.  Pixel and cell dimensions are
measured by the environment oracle and carried as naturals. -/
structure LatexEntry where
  latex : String
  displayWidth : Nat
  displayHeight : Nat
  pixelWidth : Nat
  originalCellWidth : Nat
  originalCellHeight : Nat
  isDisplayEquation : Bool := false
  renderedHTML : Option String := none
  renderError : Option String := none
  deriving DecidableEq, Repr

/-- The backing store of `LatexHashMap`: a JavaScript `Map` modelled as an
insertion-ordered association list. -/
abbrev Store := List (String × LatexEntry)

/-- JavaScript `Map.prototype.get`. -/
def jsMapGet (m : Store) (k : String) : Option LatexEntry :=
  (m.find? (fun p => p.1 == k)).map (fun p => p.2)

/-- JavaScript `Map.prototype.set`: replace in place if the key is
present (insertion order preserved), otherwise append. -/
def jsMapSet (m : Store) (k : String) (v : LatexEntry) : Store :=
  if m.any (fun p => p.1 == k) then
    m.map (fun p => if p.1 == k then (k, v) else p)
  else
    m ++ [(k, v)]

/-- JavaScript `Map.prototype.delete` (kept as a filter; keys built by
`jsMapSet` are unique). -/
def jsMapDelete (m : Store) (k : String) : Store :=
  m.filter (fun p => !(p.1 == k))

namespace LatexHashMap

/-- `maxSize` of latex-hashmap.ts line 21. -/
def maxSize : Nat := 5000

/-- `generateHash` (latex-hashmap.ts lines 27-41): the `h*31 + code`
rolling hash in 32-bit signed arithmetic, absolute value printed in
lowercase hex, first four digits, left-padded with zeros. -/
def generateHash (latex : String) : String :=
  let h := latex.data.foldl
    (fun h c => toInt32 (toInt32 (h * 32) - h + (c.toNat : Int))) 0
  let digits := Nat.toDigits 16 h.natAbs
  let first4 := digits.take 4
  String.mk (List.replicate (4 - first4.length) '0' ++ first4)

/-- `formatPlaceholder` (latex-hashmap.ts lines 47-53): marker
`««hash»` padded with spaces up to the requested width, floored at the
marker length. -/
def formatPlaceholder (hash : String) (width : Nat) : String :=
  let marker := "««" ++ hash ++ "»"
  let actualWidth := max width marker.length
  marker ++ String.mk (List.replicate (actualWidth - marker.length) ' ')

/-- Fueled scanner for the global regex `/««([a-f0-9]\x7b4\x7d»/g`:
on a match consume seven characters, otherwise advance one. -/
def scanMarkersAux : Nat → List Char → List String
  | 0, _ => []
  | fuel + 1, cs =>
    match cs with
    | c1 :: c2 :: h1 :: h2 :: h3 :: h4 :: c7 :: rest =>
      if c1 = '«' && c2 = '«' && hexDigit h1 && hexDigit h2 &&
          hexDigit h3 && hexDigit h4 && c7 = '»' then
        String.mk [h1, h2, h3, h4] :: scanMarkersAux fuel rest
      else
        scanMarkersAux fuel (c2 :: h1 :: h2 :: h3 :: h4 :: c7 :: rest)
    | _ => []

/-- All hashes of placeholder markers occurring in a line, left to
right — the regex used by `OverlayManager.updateOverlays`. -/
def scanMarkers (cs : List Char) : List String :=
  scanMarkersAux cs.length cs

/-- `extractHash` (latex-hashmap.ts lines 59-65): take the seven
characters at `position` and match the marker regex inside them. -/
def extractHash (text : String) (position : Nat) : Option String :=
  let sub := (text.data.drop position).take 7
  (scanMarkers sub).head?

/-- `set` (latex-hashmap.ts lines 71-78): evict the first (oldest)
entry when at capacity — guarded by JavaScript truthiness of the first
key — then `Map.set`. -/
def set (m : Store) (hash : String) (entry : LatexEntry) : Store :=
  let m1 :=
    if m.length ≥ maxSize then
      match m.head? with
      | some p => if p.1 = "" then m else jsMapDelete m p.1
      | none => m
    else m
  jsMapSet m1 hash entry

/-- `get` (latex-hashmap.ts lines 83-85). -/
def get (m : Store) (hash : String) : Option LatexEntry :=
  jsMapGet m hash

end LatexHashMap

/-- Result of `LatexProcessor.renderAndMeasure`: rendered HTML, width in
terminal cells, pixel width, and an error marker on KaTeX failure. -/
structure RenderResult where
  html : String
  width : Nat
  pixelWidth : Nat
  error : Option String := none
  deriving DecidableEq, Repr

/-- The external collaborators of `LatexProcessor`: the KaTeX/DOM
render-and-measure probe and the terminal cell geometry
(`getCellDimensions`). -/
structure Env where
  render : String → Bool → RenderResult
  cellWidth : Nat
  cellHeight : Nat

/-- `latexPatterns` (latex-processor.ts lines 337-342). -/
def latexPatterns : List String :=
  ["\\frac", "\\sqrt", "\\sum", "\\int", "\\nabla", "\\partial",
   "\\alpha", "\\beta", "\\gamma", "\\theta", "\\phi", "\\psi",
   "\\begin", "\\end", "\\left", "\\right",
   "^\x7b", "_\x7b", "\\cdot", "\\times", "\\div", "\\mathbf", "\\text"]

/-- `latex.replace(/\|\|/g, c1 ++ c2)` with the two-character
replacement `\\` used by both passes. -/
def replacePipes : List Char → List Char
  | '|' :: '|' :: rest => '\\' :: '\\' :: replacePipes rest
  | c :: rest => c :: replacePipes rest
  | [] => []

/-- Fueled core of `replace(/\n\s*/g, repl)`: a newline and the greedy
whitespace run after it are replaced by `repl`. -/
def collapseNLAux (repl : List Char) : Nat → List Char → List Char
  | 0, cs => cs
  | _ + 1, [] => []
  | fuel + 1, '\n' :: rest => repl ++ collapseNLAux repl fuel (rest.dropWhile jsWhitespace)
  | fuel + 1, c :: rest => c :: collapseNLAux repl fuel rest

/-- `replace(/\n\s*/g, repl)`. -/
def collapseNL (repl : List Char) (cs : List Char) : List Char :=
  collapseNLAux repl cs.length cs

/-- JavaScript `String.prototype.trim`. -/
def jsTrim (cs : List Char) : List Char :=
  ((cs.dropWhile jsWhitespace).reverse.dropWhile jsWhitespace).reverse

/-- The replacement callback of the display pass (latex-processor.ts
lines 185-230): normalise, hash, render-and-measure, store (display
flag set), and substitute the placeholder between forced newlines. -/
def displayReplacement (env : Env) (m : Store) (content : List Char) :
    List Char × Store :=
  let latex := String.mk (collapseNL [' '] (replacePipes content))
  let hash := LatexHashMap.generateHash latex
  let r := env.render latex true
  let entry : LatexEntry :=
    { latex := latex
      displayWidth := r.width
      displayHeight := 1
      pixelWidth := r.pixelWidth
      originalCellWidth := env.cellWidth
      originalCellHeight := env.cellHeight
      isDisplayEquation := true
      renderedHTML := if r.error.isSome then none else some r.html
      renderError := r.error }
  let m1 := LatexHashMap.set m hash entry
  let ph := LatexHashMap.formatPlaceholder hash r.width
  ('\n' :: ph.data ++ ['\n'], m1)

/-- Fueled global replace for `/\$\$([^$]+?)\$\$/g` (display pass).
The lazy body cannot contain `$`, so a match is an opener `$$`, the
maximal dollar-free run after it (nonempty), and an immediately
following `$$`; on failure the regex engine restarts one character
later, which after a dollar-free run means at the next `$`. -/
def replaceDisplayAux (env : Env) : Nat → Store → List Char → List Char × Store
  | 0, m, cs => (cs, m)
  | _ + 1, m, [] => ([], m)
  | fuel + 1, m, '$' :: '$' :: rest =>
    let content := rest.takeWhile (fun c => c ≠ '$')
    let rest' := rest.drop content.length
    if content.isEmpty then
      let r := replaceDisplayAux env fuel m ('$' :: rest)
      ('$' :: r.1, r.2)
    else
      match rest' with
      | '$' :: '$' :: r2 =>
        let d := displayReplacement env m content
        let r := replaceDisplayAux env fuel d.2 r2
        (d.1 ++ r.1, r.2)
      | _ =>
        let r := replaceDisplayAux env fuel m rest'
        ('$' :: '$' :: content ++ r.1, r.2)
  | fuel + 1, m, c :: rest =>
    let r := replaceDisplayAux env fuel m rest
    (c :: r.1, r.2)

/-- The display pass `result.replace(/\$\$([^$]+?)\$\$/g, ...)`. -/
def replaceDisplay (env : Env) (m : Store) (cs : List Char) : List Char × Store :=
  replaceDisplayAux env cs.length m cs

/-- The replacement callback of the inline pass (latex-processor.ts
lines 234-319): normalise, apply the small-or-math acceptance filter,
validate by rendering, store, and substitute a placeholder whose width
subtracts the fixed calibration offset with a floor of seven. -/
def inlineReplacement (env : Env) (m : Store) (content : List Char) :
    List Char × Store :=
  let matchStr := '$' :: content ++ ['$']
  let cleanLatex := jsTrim (collapseNL [] (replacePipes content))
  let cleanS := String.mk cleanLatex
  let isSmall := cleanLatex.length < 7
  let isMathExpression := decide (cleanLatex.length < 150) &&
    cleanLatex.any (fun c => c = '+' || c = '=' || c = '>' || c = '<' || c = '^' || c = '\\')
  if !isSmall && !isMathExpression then (matchStr, m)
  else
    let r := env.render cleanS false
    match r.error with
    | some _ => (matchStr, m)
    | none =>
      let hash := LatexHashMap.generateHash cleanS
      let entry : LatexEntry :=
        { latex := cleanS
          displayWidth := r.width
          displayHeight := 1
          pixelWidth := r.pixelWidth
          originalCellWidth := env.cellWidth
          originalCellHeight := env.cellHeight
          isDisplayEquation := false
          renderedHTML := some r.html
          renderError := none }
      let m1 := LatexHashMap.set m hash entry
      let contentCells := r.pixelWidth / env.cellWidth
      let adjustedCells := max (contentCells - 2) 7
      let ph := LatexHashMap.formatPlaceholder hash adjustedCells
      (ph.data, m1)

/-- Fueled global replace for `/\$([^$]+?)\$/g` (inline pass). -/
def replaceInlineAux (env : Env) : Nat → Store → List Char → List Char × Store
  | 0, m, cs => (cs, m)
  | _ + 1, m, [] => ([], m)
  | fuel + 1, m, '$' :: rest =>
    let content := rest.takeWhile (fun c => c ≠ '$')
    let rest' := rest.drop content.length
    if content.isEmpty then
      let r := replaceInlineAux env fuel m rest
      ('$' :: r.1, r.2)
    else
      match rest' with
      | '$' :: r2 =>
        let i := inlineReplacement env m content
        let r := replaceInlineAux env fuel i.2 r2
        (i.1 ++ r.1, r.2)
      | _ => ('$' :: content, m)
  | fuel + 1, m, c :: rest =>
    let r := replaceInlineAux env fuel m rest
    (c :: r.1, r.2)

/-- The inline pass `result.replace(/\$([^$]+?)\$/g, ...)`. -/
def replaceInline (env : Env) (m : Store) (cs : List Char) : List Char × Store :=
  replaceInlineAux env cs.length m cs

/-- Incomplete-tail detection (latex-processor.ts lines 321-371):
returns the emitted result and the new held-back buffer. -/
def detectTail (cs : List Char) : List Char × List Char :=
  let lastSingle := lastIndexOfChar cs '$'
  let lastDouble := lastIndexOfStr cs ['$', '$']
  let lastNewline := lastIndexOfChar cs '\n'
  let lastDollar := max lastSingle lastDouble
  if decide (lastDollar > lastNewline) && !(lastDollar == -1) then
    let isDoubleDollar := lastDouble == lastDollar
    let dollarOffset : Int := if isDoubleDollar then 2 else 1
    let beforeDollar := jsSubstring cs (max 0 (lastDollar - 20)) lastDollar
    let afterDollar := cs.drop (lastDollar + dollarOffset).toNat
    let potentialBuffer := cs.drop lastDollar.toNat
    let looksLikeLatex :=
      latexPatterns.any (fun p => containsSub afterDollar p.data) ||
      latexPatterns.any (fun p => containsSub beforeDollar p.data)
    let isShellPrompt := !isDoubleDollar &&
      (match afterDollar with
       | [] => true
       | c :: _ => jsWhitespace c)
    let maxBufferSize : Nat := if isDoubleDollar then 100 else 50
    let shouldBuffer := isDoubleDollar || looksLikeLatex
    if !containsSub afterDollar (if isDoubleDollar then ['$', '$'] else ['$']) &&
        !containsSub afterDollar ['\n'] &&
        shouldBuffer &&
        !isShellPrompt &&
        decide (potentialBuffer.length < maxBufferSize) then
      (cs.take lastDollar.toNat, potentialBuffer)
    else (cs, [])
  else (cs, [])

/-- Stale-buffer guard (latex-processor.ts lines 373-380): if the held
buffer exceeds 100 characters, reinject it in front of the result. -/
def staleGuard (result buffer : List Char) : List Char × List Char :=
  if buffer.length > 100 then (buffer ++ result, []) else (result, buffer)

/-- `processLatex` up to and including the incomplete-tail stage:
buffer reassembly, display pass, inline pass, tail detection. -/
def processLatexCore (env : Env) (buffer : String) (m : Store) (text : String) :
    List Char × List Char × Store :=
  let combined := buffer ++ text
  let d := replaceDisplay env m combined.data
  let i := replaceInline env d.2 d.1
  let t := detectTail i.1
  (t.1, t.2, i.2)

/-- `processLatex` (latex-processor.ts lines 175-383): returns the
substituted text, the new held-back buffer, and the updated store. -/
def processLatex (env : Env) (buffer : String) (m : Store) (text : String) :
    String × String × Store :=
  let core := processLatexCore env buffer m text
  let s := staleGuard core.1 core.2.1
  (String.mk s.1, String.mk s.2, core.2.2)

/-- A chunk handed to `terminal.write`: a string or a binary buffer. -/
inductive WriteData where
  | str (s : String)
  | bytes
  deriving DecidableEq

/-- The mutable fields of `LatexProcessor` relevant to the write hook. -/
structure ProcState where
  enabled : Bool
  inAlternateScreen : Bool
  buffer : String
  map : Store
  deriving DecidableEq

/-- The hooked `terminal.write` (latex-processor.ts lines 138-169):
returns the data forwarded to the original write and the new state. -/
def hookTerminalWrite (env : Env) (st : ProcState) (data : WriteData) :
    WriteData × ProcState :=
  match data with
  | .bytes => (.bytes, st)
  | .str s =>
    if !st.enabled || st.inAlternateScreen then (.str s, st)
    else if containsSub s.data "\x1b[?1049h".data then
      (.str s, { st with inAlternateScreen := true })
    else if containsSub s.data "\x1b[?1049l".data then
      (.str s, { st with inAlternateScreen := false })
    else
      let p := processLatex env st.buffer st.map s
      (.str p.1, { st with buffer := p.2.1, map := p.2.2 })

/-- An overlay handle: the `overlays` map of `OverlayManager` keyed by
hash, each carrying its `active` liveness flag (grid position and DOM
surface are irrelevant to overlay existence and are omitted). -/
abbrev Overlays := List (String × Bool)

/-- JavaScript `Map.set` for the overlays map. -/
def overlaySet (m : Overlays) (k : String) (b : Bool) : Overlays :=
  if m.any (fun p => p.1 == k) then
    m.map (fun p => if p.1 == k then (k, b) else p)
  else
    m ++ [(k, b)]

/-- `createOrUpdateOverlay` (overlay-manager.ts lines 222-287, liveness
projection): bail out if the hash does not resolve in the store,
otherwise get-or-create the overlay and mark it active. -/
def createOrUpdateOverlay (store : Store) (m : Overlays) (hash : String) : Overlays :=
  match LatexHashMap.get store hash with
  | none => m
  | some _ => overlaySet m hash true

/-- `updateOverlays` (overlay-manager.ts lines 380-423): mark all
overlays inactive, sweep every visible row for marker matches, then
remove the overlays still inactive. -/
def updateOverlays (store : Store) (rows : List String) (prev : Overlays) : Overlays :=
  let marked := prev.map (fun p => (p.1, false))
  let found := rows.flatMap (fun row => LatexHashMap.scanMarkers row.data)
  let swept := found.foldl (fun m h => createOrUpdateOverlay store m h) marked
  swept.filter (fun p => p.2)

/-- A concrete environment whose probe always succeeds, rendering
every expression at 80 pixels in an 8-pixel-per-cell grid. -/
def env0 : Env :=
  { render := fun _ _ => { html := "", width := 7, pixelWidth := 80 },
    cellWidth := 8, cellHeight := 16 }

/-- A concrete stored record for witnesses and counterexamples. -/
def mkEntry (t : String) : LatexEntry :=
  { latex := t, displayWidth := 7, displayHeight := 1, pixelWidth := 80,
    originalCellWidth := 8, originalCellHeight := 16 }

/-- Distinct nonempty keys for witnesses: `i` maps to `i + 1` copies
of `a`. -/
def natKey (i : Nat) : String :=
  String.mk ('a' :: List.replicate i 'a')

/-- `n` insertions with consecutive fresh keys starting at `start`. -/
def genInserts : Nat → Nat → List (String × LatexEntry)
  | _, 0 => []
  | start, n + 1 => (natKey start, mkEntry "") :: genInserts (start + 1) n

/-- Replacing a present key in place puts `(k, v)` where `find?` first
succeeds on `k`. -/
theorem find?_map_replace (k : String) (v : LatexEntry) (m : Store)
    (h : m.any (fun p => p.1 == k) = true) :
    (m.map (fun p => if p.1 == k then (k, v) else p)).find? (fun p => p.1 == k) =
      some (k, v) := by
  induction m with
  | nil => simp at h
  | cons p tl ih =>
    by_cases hp : p.1 = k
    · simp [List.find?, hp]
    · have hpk : (p.1 == k) = false := beq_eq_false_iff_ne.mpr hp
      have htl : tl.any (fun q => q.1 == k) = true := by
        simpa [List.any_cons, hpk] using h
      simp only [List.map_cons, hpk, Bool.false_eq_true, if_false, List.find?, hpk]
      exact ih htl

/-- `Map.set` followed by `Map.get` of the same key yields the stored
value, whether the key was replaced in place or appended. -/
theorem jsMapGet_jsMapSet_self (m : Store) (k : String) (v : LatexEntry) :
    jsMapGet (jsMapSet m k v) k = some v := by
  unfold jsMapSet jsMapGet
  split
  case isTrue h => rw [find?_map_replace k v m h]; rfl
  case isFalse h =>
    rw [Bool.not_eq_true, List.any_eq_false] at h
    rw [List.find?_append]
    have hn : m.find? (fun p => p.1 == k) = none := by
      rw [List.find?_eq_none]
      intro p hp
      exact h p hp
    simp [hn, List.find?]

/-- `LatexHashMap.set` followed by `get` of the same hash yields the
stored entry (eviction never removes the key just being written). -/
theorem LatexHashMap.get_set_self (m : Store) (k : String) (v : LatexEntry) :
    LatexHashMap.get (LatexHashMap.set m k v) k = some v := by
  unfold LatexHashMap.set LatexHashMap.get
  exact jsMapGet_jsMapSet_self _ k v

set_option maxRecDepth 8192 in
/-- Claim C1: the write hook is claimed to clear alternate-mode when a
chunk containing the exit sequence `ESC[?1049l` arrives.  The code
returns early on `inAlternateScreen` before the exit-sequence check, so
a chunk that does contain the exit sequence is passed through with the
state unchanged: alternate-mode is never cleared and detection never
resumes. -/
theorem claim_C1_exit_sequence_never_clears_alternate_mode :
    containsSub "\x1b[?1049l".data "\x1b[?1049l".data = true ∧
    hookTerminalWrite env0 ⟨true, true, "", []⟩ (.str "\x1b[?1049l") =
      (.str "\x1b[?1049l", ⟨true, true, "", []⟩) := by
  constructor
  · decide
  · rfl

set_option maxRecDepth 8192 in
/-- Claim C2: feeding `"a $\fra"` then `"c{1}{2}$ b"` is claimed to
produce the same substituted output as the single chunk
`"a $\frac{1}{2}$ b"`.  With a succeeding measurement probe the single
chunk is substituted with a placeholder, but the two-chunk run holds
nothing back (the truncated `\fra` matches no pattern of the fixed
list), emits the text unsubstituted, and the outputs differ. -/
theorem claim_C2_chunk_split_divergence :
    (let p1 := processLatex env0 "" [] "a $\\fra"
     let p2 := processLatex env0 p1.2.1 p1.2.2 "c\x7b1\x7d\x7b2\x7d$ b"
     p1.1 ++ p2.1 = "a $\\frac\x7b1\x7d\x7b2\x7d$ b" ∧
       p1.2.1 = "" ∧
       (processLatex env0 "" [] "a $\\frac\x7b1\x7d\x7b2\x7d$ b").1 =
         "a ««7be7»  b" ∧
       p1.1 ++ p2.1 ≠ (processLatex env0 "" [] "a $\\frac\x7b1\x7d\x7b2\x7d$ b").1) := by
  refine ⟨by rfl, by rfl, by rfl, by decide⟩

set_option maxRecDepth 8192 in
/-- Claim C3 counterexample: identifier generation has no perturbation
or retry at all.  The distinct texts `"Aa"` and `"BB"` collide under
the rolling hash and receive the same identifier, and the later
insertion silently overwrites the earlier record. -/
theorem claim_C3_counterexample :
    LatexHashMap.generateHash "Aa" = LatexHashMap.generateHash "BB" ∧
    "Aa" ≠ "BB" ∧
    (LatexHashMap.get
        (LatexHashMap.set
          (LatexHashMap.set [] (LatexHashMap.generateHash "Aa") (mkEntry "Aa"))
          (LatexHashMap.generateHash "BB") (mkEntry "BB"))
        (LatexHashMap.generateHash "Aa")).map LatexEntry.latex = some "BB" := by
  refine ⟨by rfl, by decide, by rfl⟩

/-- Claim C3 (amended): identifier generation is a pure deterministic
hash with no collision handling; two distinct texts whose hashes agree
receive the same identifier and the later insertion overwrites the
earlier record. -/
theorem claim_C3_amended_collision_overwrites (m : Store) (t1 t2 : String)
    (e1 e2 : LatexEntry) (_hne : t1 ≠ t2)
    (hcol : LatexHashMap.generateHash t1 = LatexHashMap.generateHash t2) :
    LatexHashMap.get
        (LatexHashMap.set (LatexHashMap.set m (LatexHashMap.generateHash t1) e1)
          (LatexHashMap.generateHash t2) e2)
        (LatexHashMap.generateHash t1) = some e2 := by
  rw [hcol]
  exact LatexHashMap.get_set_self _ _ _

/-- Witness for the amended claim C3 at the concrete collision. -/
theorem claim_C3_amended_witness :
    LatexHashMap.get
        (LatexHashMap.set
          (LatexHashMap.set [] (LatexHashMap.generateHash "Aa") (mkEntry "Aa"))
          (LatexHashMap.generateHash "BB") (mkEntry "BB"))
        (LatexHashMap.generateHash "Aa") = some (mkEntry "BB") :=
  claim_C3_amended_collision_overwrites [] "Aa" "BB" (mkEntry "Aa") (mkEntry "BB")
    (by decide) (by rfl)

/-- Claim C8: identifier generation is a deterministic pure function of
the normalized text, so repeated insertion of the same text `t` uses
the same identifier `generateHash t`, and immediately after each
insertion the record stored under that identifier has latex text `t`. -/
theorem claim_C8_repeat_insert_same_identifier (m : Store) (t : String)
    (e1 e2 : LatexEntry) (h1 : e1.latex = t) (h2 : e2.latex = t) :
    (LatexHashMap.get (LatexHashMap.set m (LatexHashMap.generateHash t) e1)
        (LatexHashMap.generateHash t)).map LatexEntry.latex = some t ∧
    (LatexHashMap.get
        (LatexHashMap.set (LatexHashMap.set m (LatexHashMap.generateHash t) e1)
          (LatexHashMap.generateHash t) e2)
        (LatexHashMap.generateHash t)).map LatexEntry.latex = some t := by
  rw [LatexHashMap.get_set_self, LatexHashMap.get_set_self]
  simp [h1, h2]

/-- Witness for claim C8 at a concrete text and empty store. -/
theorem claim_C8_witness :
    (LatexHashMap.get (LatexHashMap.set [] (LatexHashMap.generateHash "x") (mkEntry "x"))
        (LatexHashMap.generateHash "x")).map LatexEntry.latex = some "x" ∧
    (LatexHashMap.get
        (LatexHashMap.set (LatexHashMap.set [] (LatexHashMap.generateHash "x") (mkEntry "x"))
          (LatexHashMap.generateHash "x") (mkEntry "x"))
        (LatexHashMap.generateHash "x")).map LatexEntry.latex = some "x" :=
  claim_C8_repeat_insert_same_identifier [] "x" (mkEntry "x") (mkEntry "x") rfl rfl

/-- The character list of an encoded placeholder: marker then filler. -/
theorem formatPlaceholder_data (hash : String) (w : Nat) :
    (LatexHashMap.formatPlaceholder hash w).data
      = '«' :: '«' :: hash.data ++ '»' ::
          List.replicate (max w (hash.data.length + 3) - (hash.data.length + 3)) ' ' := by
  obtain ⟨l⟩ := hash
  have hmlen : ("««" ++ String.mk l ++ "»").length = l.length + 3 := by
    rw [String.length_append, String.length_append]
    show 2 + l.length + 1 = l.length + 3
    omega
  unfold LatexHashMap.formatPlaceholder
  rw [String.data_append, String.data_append, String.data_append, hmlen]
  show (['«', '«'] ++ l ++ ['»']) ++
      List.replicate (max w (l.length + 3) - (l.length + 3)) ' '
      = '«' :: '«' :: l ++ '»' :: List.replicate (max w (l.length + 3) - (l.length + 3)) ' '
  simp

/-- The encoded placeholder occupies `max w markerLength` characters. -/
theorem formatPlaceholder_length (hash : String) (w : Nat) :
    (LatexHashMap.formatPlaceholder hash w).length = max w (hash.data.length + 3) := by
  have h : (LatexHashMap.formatPlaceholder hash w).length
      = (LatexHashMap.formatPlaceholder hash w).data.length := rfl
  rw [h, formatPlaceholder_data]
  simp
  omega

/-- Claim C4: for every 4-character identifier over the token alphabet
and every requested cell width `w`, the encoded placeholder has length
exactly `max w 7` (7 is the marker length), and decoding it at offset 0
with `extractHash` recovers exactly the identifier. -/
theorem claim_C4_placeholder_roundtrip (id : String) (w : Nat) (hlen : id.length = 4)
    (hhex : ∀ c ∈ id.data, hexDigit c = true) :
    (LatexHashMap.formatPlaceholder id w).length = max w 7 ∧
    LatexHashMap.extractHash (LatexHashMap.formatPlaceholder id w) 0 = some id := by
  have hdl : id.data.length = 4 := hlen
  constructor
  · rw [formatPlaceholder_length, hdl]
  · obtain ⟨l⟩ := id
    simp only [String.data] at hdl hhex
    rcases l with _ | ⟨a, _ | ⟨b, _ | ⟨c, _ | ⟨d, _ | ⟨e, l⟩⟩⟩⟩⟩ <;>
      simp only [List.length] at hdl <;> try omega
    have ha : hexDigit a = true := hhex a (by simp)
    have hb : hexDigit b = true := hhex b (by simp)
    have hc : hexDigit c = true := hhex c (by simp)
    have hd : hexDigit d = true := hhex d (by simp)
    have hdata := formatPlaceholder_data ⟨[a, b, c, d]⟩ w
    simp only [String.data, List.length] at hdata
    unfold LatexHashMap.extractHash
    rw [hdata]
    show (LatexHashMap.scanMarkers
      (('«' :: '«' :: [a, b, c, d] ++ '»' ::
        List.replicate (max w (4 + 3) - (4 + 3)) ' ').take 7)).head? = some ⟨[a, b, c, d]⟩
    have h7 : ('«' :: '«' :: [a, b, c, d] ++ '»' ::
        List.replicate (max w (4 + 3) - (4 + 3)) ' ').take 7
        = ['«', '«', a, b, c, d, '»'] := by
      have hsplit : ('«' :: '«' :: [a, b, c, d] ++ '»' ::
          List.replicate (max w (4 + 3) - (4 + 3)) ' ')
          = ['«', '«', a, b, c, d, '»'] ++
            List.replicate (max w (4 + 3) - (4 + 3)) ' ' := by simp
      rw [hsplit]
      have h7l : (7 : Nat) = (['«', '«', a, b, c, d, '»'] : List Char).length := by simp
      rw [h7l, List.take_left]
    rw [h7]
    simp [LatexHashMap.scanMarkers, LatexHashMap.scanMarkersAux, ha, hb, hc, hd]

/-- Witness for claim C4 at identifier `"a7b3"` and width 3 (exercising
the marker-length floor). -/
theorem claim_C4_witness :
    ("a7b3" : String).length = 4 ∧
    (LatexHashMap.formatPlaceholder "a7b3" 3).length = max 3 7 ∧
    LatexHashMap.extractHash (LatexHashMap.formatPlaceholder "a7b3" 3) 0 = some "a7b3" := by
  refine ⟨by decide, ?_, ?_⟩
  · exact (claim_C4_placeholder_roundtrip "a7b3" 3 (by decide) (by decide)).1
  · exact (claim_C4_placeholder_roundtrip "a7b3" 3 (by decide) (by decide)).2

/-- The buffer produced by incomplete-tail detection is always shorter
than 100 characters: it is either empty or guarded by
`potentialBuffer.length < maxBufferSize` with `maxBufferSize ≤ 100`. -/
theorem detectTail_buffer_lt (cs : List Char) : (detectTail cs).2.length < 100 := by
  unfold detectTail
  dsimp only
  split_ifs with h1 h2 h3 h4 <;>
    simp_all only [Bool.and_eq_true, decide_eq_true_eq, List.length_nil] <;> omega

/-- Claim C10: at the return of every call to `processLatex`, for every
input chunk and every prior buffer and store, the held-back buffer has
length strictly below 100; consequently the stale-buffer reinjection
branch guarded by `buffer.length > 100` is a no-op in every call. -/
theorem claim_C10_buffer_always_below_stale_bound (env : Env) (b : String)
    (m : Store) (t : String) :
    (processLatex env b m t).2.1.length < 100 ∧
    staleGuard (processLatexCore env b m t).1 (processLatexCore env b m t).2.1
      = ((processLatexCore env b m t).1, (processLatexCore env b m t).2.1) := by
  have hlt : (processLatexCore env b m t).2.1.length < 100 := detectTail_buffer_lt _
  have hguard : staleGuard (processLatexCore env b m t).1 (processLatexCore env b m t).2.1
      = ((processLatexCore env b m t).1, (processLatexCore env b m t).2.1) := by
    unfold staleGuard
    rw [if_neg]
    omega
  refine ⟨?_, hguard⟩
  show (String.mk (staleGuard (processLatexCore env b m t).1
      (processLatexCore env b m t).2.1).2).length < 100
  rw [hguard]
  exact hlt

/-- Marking an overlay active leaves exactly the previously active
overlays active plus the marked key. -/
theorem mem_overlaySet_true (m : Overlays) (k h : String) :
    ((h, true) ∈ overlaySet m k true) ↔ ((h, true) ∈ m ∨ h = k) := by
  unfold overlaySet
  split
  case isTrue hp =>
    rw [List.any_eq_true] at hp
    obtain ⟨q, hq, hqk⟩ := hp
    rw [beq_iff_eq] at hqk
    constructor
    · intro hm
      rw [List.mem_map] at hm
      obtain ⟨p, hpm, hpe⟩ := hm
      by_cases hk : p.1 = k
      · simp only [hk, beq_self_eq_true, if_true] at hpe
        right
        exact (Prod.mk.injEq _ _ _ _ ▸ hpe).1.symm ▸ rfl
      · have : (p.1 == k) = false := beq_eq_false_iff_ne.mpr hk
        simp only [this, Bool.false_eq_true, if_false] at hpe
        left
        exact hpe ▸ hpm
    · intro hm
      rcases hm with hm | rfl
      · rw [List.mem_map]
        by_cases hk : h = k
        · refine ⟨q, hq, ?_⟩
          simp [hqk, hk]
        · refine ⟨(h, true), hm, ?_⟩
          have : ((h, true).1 == k) = false := beq_eq_false_iff_ne.mpr hk
          simp [this]
      · rw [List.mem_map]
        refine ⟨q, hq, ?_⟩
        simp [hqk]
  case isFalse hp =>
    simp only [List.mem_append, List.mem_singleton]
    constructor
    · rintro (hm | he)
      · exact Or.inl hm
      · right
        exact (Prod.mk.injEq _ _ _ _ ▸ he).1
    · rintro (hm | rfl)
      · exact Or.inl hm
      · right
        rfl

theorem mem_createOrUpdateOverlay_true (store : Store) (m : Overlays) (g h : String) :
    ((h, true) ∈ createOrUpdateOverlay store m g) ↔
      ((h, true) ∈ m ∨ (h = g ∧ (LatexHashMap.get store g).isSome)) := by
  unfold createOrUpdateOverlay
  cases hg : LatexHashMap.get store g with
  | none => simp [hg]
  | some e => simp [mem_overlaySet_true]

theorem sweep_mem (store : Store) (fs : List String) (acc : Overlays) (h : String) :
    ((h, true) ∈ fs.foldl (fun m g => createOrUpdateOverlay store m g) acc) ↔
      ((h, true) ∈ acc ∨ (h ∈ fs ∧ (LatexHashMap.get store h).isSome)) := by
  induction fs generalizing acc with
  | nil => simp
  | cons g tl ih =>
    rw [List.foldl_cons, ih, mem_createOrUpdateOverlay_true]
    constructor
    · rintro ((hm | ⟨rfl, hs⟩) | ⟨htl, hs⟩)
      · exact Or.inl hm
      · exact Or.inr ⟨List.mem_cons_self _ _, hs⟩
      · exact Or.inr ⟨List.mem_cons_of_mem _ htl, hs⟩
    · rintro (hm | ⟨hmem, hs⟩)
      · exact Or.inl (Or.inl hm)
      · rcases List.mem_cons.mp hmem with rfl | htl
        · exact Or.inl (Or.inr ⟨rfl, hs⟩)
        · exact Or.inr ⟨htl, hs⟩

theorem mem_filter_snd_map_fst (l : Overlays) (h : String) :
    h ∈ (l.filter (fun p => p.2)).map Prod.fst ↔ (h, true) ∈ l := by
  rw [List.mem_map]
  constructor
  · rintro ⟨⟨a, b⟩, hp, rfl⟩
    rw [List.mem_filter] at hp
    have hb : b = true := hp.2
    exact hb ▸ hp.1
  · intro hm
    exact ⟨(h, true), List.mem_filter.mpr ⟨hm, rfl⟩, rfl⟩

/-- Claim C7: after a completed overlay sweep, an overlay handle exists
for identifier `h` iff `h` occurs as a placeholder marker in some
visible row and `h` resolves in the content store; unknown identifiers
never yield overlays and overlays not re-observed are removed. -/
theorem claim_C7_overlay_existence_iff (store : Store) (rows : List String) (prev : Overlays) (h : String) :
    (h ∈ (updateOverlays store rows prev).map Prod.fst) ↔
      ((∃ row ∈ rows, h ∈ LatexHashMap.scanMarkers row.data) ∧
        (LatexHashMap.get store h).isSome) := by
  unfold updateOverlays
  dsimp only
  rw [mem_filter_snd_map_fst, sweep_mem]
  have hmarked : ((h, true) ∈ prev.map (fun p => (p.1, false))) ↔ False := by
    simp
  rw [hmarked, List.mem_flatMap]
  simp

/-- Deleting the first key of a duplicate-free map drops exactly the
head entry. -/
theorem jsMapDelete_head (q : String × LatexEntry) (tl : Store)
    (hq : q.1 ∉ tl.map Prod.fst) : jsMapDelete (q :: tl) q.1 = tl := by
  unfold jsMapDelete
  rw [List.filter_cons]
  simp only [beq_self_eq_true, Bool.not_true, Bool.false_eq_true, if_false]
  apply List.filter_eq_self.mpr
  intro p hp
  simp only [Bool.not_eq_true', beq_eq_false_iff_ne]
  intro he
  exact hq (he ▸ List.mem_map_of_mem Prod.fst hp)

/-- `Map.set` of an absent key appends the new entry. -/
theorem jsMapSet_absent (m : Store) (k : String) (v : LatexEntry)
    (hk : k ∉ m.map Prod.fst) : jsMapSet m k v = m ++ [(k, v)] := by
  unfold jsMapSet
  rw [if_neg]
  intro hany
  rw [List.any_eq_true] at hany
  obtain ⟨p, hp, hpk⟩ := hany
  rw [beq_iff_eq] at hpk
  exact hk (hpk ▸ List.mem_map_of_mem Prod.fst hp)

/-- Folding `LatexHashMap.set` over fresh nonempty keys keeps exactly
the most recent `maxSize` entries: the store equals the insertion list
with its oldest overflow dropped. -/
theorem foldl_set_eq_drop (l : List (String × LatexEntry)) (s : Store)
    (hnd : ((s ++ l).map Prod.fst).Nodup)
    (hne : ∀ p ∈ s ++ l, p.1 ≠ "")
    (hlen : s.length ≤ LatexHashMap.maxSize) :
    l.foldl (fun m p => LatexHashMap.set m p.1 p.2) s
      = (s ++ l).drop (s.length + l.length - LatexHashMap.maxSize) := by
  induction l generalizing s with
  | nil =>
    simp only [List.foldl_nil, List.append_nil, List.length_nil, Nat.add_zero]
    rw [Nat.sub_eq_zero_of_le hlen, List.drop_zero]
  | cons p tl ih =>
    have hkeys : ((s ++ p :: tl).map Prod.fst)
        = s.map Prod.fst ++ p.1 :: tl.map Prod.fst := by simp
    have hp_notin_s : p.1 ∉ s.map Prod.fst := by
      rw [hkeys, List.nodup_append] at hnd
      intro hmem
      exact hnd.2.2 hmem (List.mem_cons_self _ _)
    rw [List.foldl_cons]
    by_cases hs : s.length < LatexHashMap.maxSize
    · have hset : LatexHashMap.set s p.1 p.2 = s ++ [p] := by
        unfold LatexHashMap.set
        rw [if_neg (by omega)]
        exact jsMapSet_absent s p.1 p.2 hp_notin_s
      have heq : (s ++ [p]) ++ tl = s ++ p :: tl := by simp
      rw [hset, ih (s ++ [p]) (by rw [heq]; exact hnd) (by rw [heq]; exact hne)
        (by simp only [List.length_append, List.length_cons, List.length_nil]; omega)]
      rw [heq]
      have harith : (s ++ [p]).length + tl.length - LatexHashMap.maxSize
          = s.length + (p :: tl).length - LatexHashMap.maxSize := by
        simp only [List.length_append, List.length_cons, List.length_nil]
        omega
      rw [harith]
    · have hseq : s.length = LatexHashMap.maxSize := by omega
      have hms : LatexHashMap.maxSize = 5000 := rfl
      rcases s with _ | ⟨q, s'⟩
      · rw [List.length_nil] at hseq
        omega
      have hq_ne : q.1 ≠ "" := hne q (by simp)
      have hq_notin : q.1 ∉ s'.map Prod.fst := by
        have h2 : ((q :: s').map Prod.fst).Nodup := by
          rw [hkeys, List.nodup_append] at hnd
          exact hnd.1
        simp only [List.map_cons, List.nodup_cons] at h2
        exact h2.1
      have hp_notin_s' : p.1 ∉ s'.map Prod.fst := by
        intro hmem
        exact hp_notin_s (by simp [hmem])
      have hset : LatexHashMap.set (q :: s') p.1 p.2 = s' ++ [p] := by
        unfold LatexHashMap.set
        rw [if_pos (by omega)]
        simp only [List.head?_cons]
        rw [if_neg hq_ne, jsMapDelete_head q s' hq_notin]
        exact jsMapSet_absent s' p.1 p.2 hp_notin_s'
      have heq2 : (s' ++ [p]) ++ tl = s' ++ p :: tl := by simp
      have hnd' : (((s' ++ [p]) ++ tl).map Prod.fst).Nodup := by
        rw [heq2]
        have h3 : ((q :: (s' ++ p :: tl)).map Prod.fst).Nodup := by
          simpa using hnd
        simp only [List.map_cons, List.nodup_cons] at h3
        exact h3.2
      have hne' : ∀ r ∈ (s' ++ [p]) ++ tl, r.1 ≠ "" := by
        intro r hr
        apply hne
        rw [heq2] at hr
        simp only [List.cons_append, List.mem_cons, List.mem_append] at hr ⊢
        tauto
      have hlen' : (s' ++ [p]).length ≤ LatexHashMap.maxSize := by
        simp only [List.length_append, List.length_cons, List.length_nil] at hseq ⊢
        omega
      rw [hset, ih (s' ++ [p]) hnd' hne' hlen']
      rw [heq2]
      have harith : (s' ++ [p]).length + tl.length - LatexHashMap.maxSize
          = tl.length := by
        simp only [List.length_append, List.length_cons, List.length_nil] at hseq ⊢
        omega
      have harith2 : (q :: s').length + (p :: tl).length - LatexHashMap.maxSize
          = tl.length + 1 := by
        simp only [List.length_cons] at hseq ⊢
        omega
      rw [harith, harith2]
      show (s' ++ p :: tl).drop tl.length
          = ((q :: (s' ++ p :: tl)) : Store).drop (tl.length + 1)
      rw [List.drop_succ_cons]

/-- A lookup succeeds exactly for keys present in the store. -/
theorem get_isSome_iff_mem (m : Store) (h : String) :
    (LatexHashMap.get m h).isSome ↔ h ∈ m.map Prod.fst := by
  unfold LatexHashMap.get jsMapGet
  cases hf : m.find? (fun p => p.1 == h) with
  | none =>
    rw [List.find?_eq_none] at hf
    simp only [Option.map_none', Option.isSome_none, Bool.false_eq_true, false_iff]
    intro hmem
    rw [List.mem_map] at hmem
    obtain ⟨p, hp, hpk⟩ := hmem
    exact hf p hp (by rw [hpk]; exact beq_self_eq_true h)
  | some p =>
    have hp1' := List.find?_some hf
    have hp1 : p.1 = h := by simpa using hp1'
    have hpm : p ∈ m := List.mem_of_find?_eq_some hf
    simp only [Option.map_some', Option.isSome_some, true_iff]
    exact hp1 ▸ List.mem_map_of_mem Prod.fst hpm

/-- Claim C5: starting from an empty store, inserting `capacity + k`
expressions with pairwise distinct (nonempty) identifiers leaves
exactly `capacity` entries, and lookup resolves exactly the `capacity`
most recently inserted identifiers, the `k` oldest having been evicted
oldest-insertion-first. -/
theorem claim_C5_capacity_eviction (inserts : List (String × LatexEntry)) (k : Nat)
    (hnd : (inserts.map Prod.fst).Nodup)
    (hne : ∀ p ∈ inserts, p.1 ≠ "")
    (hlen : inserts.length = LatexHashMap.maxSize + k) :
    (inserts.foldl (fun m p => LatexHashMap.set m p.1 p.2) []).length
        = LatexHashMap.maxSize ∧
    ∀ h, (LatexHashMap.get
        (inserts.foldl (fun m p => LatexHashMap.set m p.1 p.2) []) h).isSome
      ↔ h ∈ (inserts.map Prod.fst).drop k := by
  have hfold := foldl_set_eq_drop inserts [] (by simpa using hnd)
    (by simpa using hne) (by simp)
  simp only [List.nil_append, List.length_nil, Nat.zero_add] at hfold
  have harith : inserts.length - LatexHashMap.maxSize = k := by omega
  rw [harith] at hfold
  rw [hfold]
  constructor
  · rw [List.length_drop]
    omega
  · intro h
    rw [get_isSome_iff_mem, List.map_drop]

/-- `natKey` is injective (by length). -/
theorem natKey_inj (i j : Nat) (h : natKey i = natKey j) : i = j := by
  have h2 : (natKey i).data.length = (natKey j).data.length := by rw [h]
  simp only [natKey, List.length_cons, List.length_replicate] at h2
  omega

/-- `natKey` never produces the empty string. -/
theorem natKey_ne_empty (i : Nat) : natKey i ≠ "" := by
  intro h
  have h2 : (natKey i).data = ("" : String).data := by rw [h]
  simp [natKey] at h2

/-- `genInserts` produces exactly `n` entries. -/
theorem genInserts_length (start n : Nat) : (genInserts start n).length = n := by
  induction n generalizing start with
  | zero => rfl
  | succ n ih => simp [genInserts, ih]

/-- The keys of `genInserts start n` are `natKey (start + i)` for
`i < n`. -/
theorem genInserts_keys_mem (start n : Nat) (k : String) :
    k ∈ (genInserts start n).map Prod.fst ↔ ∃ i, i < n ∧ k = natKey (start + i) := by
  induction n generalizing start with
  | zero => simp [genInserts]
  | succ n ih =>
    simp only [genInserts, List.map_cons, List.mem_cons, ih]
    constructor
    · rintro (rfl | ⟨i, hi, rfl⟩)
      · exact ⟨0, by omega, by rw [Nat.add_zero]⟩
      · exact ⟨i + 1, by omega, by rw [show start + (i + 1) = start + 1 + i from by omega]⟩
    · rintro ⟨i, hi, rfl⟩
      cases i with
      | zero => left; rw [Nat.add_zero]
      | succ i =>
        right
        exact ⟨i, by omega, by rw [show start + (i + 1) = start + 1 + i from by omega]⟩

/-- The keys of `genInserts` are pairwise distinct. -/
theorem genInserts_nodup (start n : Nat) :
    ((genInserts start n).map Prod.fst).Nodup := by
  induction n generalizing start with
  | zero => simp [genInserts]
  | succ n ih =>
    simp only [genInserts, List.map_cons, List.nodup_cons]
    refine ⟨?_, ih (start + 1)⟩
    rw [genInserts_keys_mem]
    rintro ⟨i, hi, heq⟩
    have := natKey_inj _ _ heq
    omega

/-- All keys of `genInserts` are nonempty. -/
theorem genInserts_ne_empty (start n : Nat) :
    ∀ p ∈ genInserts start n, p.1 ≠ "" := by
  induction n generalizing start with
  | zero => simp [genInserts]
  | succ n ih =>
    intro p hp
    simp only [genInserts, List.mem_cons] at hp
    rcases hp with rfl | hp
    · exact natKey_ne_empty start
    · exact ih (start + 1) p hp

/-- The first key of a nonempty `genInserts` list. -/
theorem genInserts_head (start n : Nat) (h : 0 < n) :
    ((genInserts start n).map Prod.fst).head? = some (natKey start) := by
  cases n with
  | zero => omega
  | succ n => rfl

/-- Witness for claim C5 at `capacity + 1` concrete insertions. -/
theorem claim_C5_witness :
    ((genInserts 0 (LatexHashMap.maxSize + 1)).map Prod.fst).Nodup ∧
    (∀ p ∈ genInserts 0 (LatexHashMap.maxSize + 1), p.1 ≠ "") ∧
    (genInserts 0 (LatexHashMap.maxSize + 1)).length = LatexHashMap.maxSize + 1 ∧
    ((genInserts 0 (LatexHashMap.maxSize + 1)).foldl
        (fun m p => LatexHashMap.set m p.1 p.2) []).length = LatexHashMap.maxSize ∧
    ∀ h, (LatexHashMap.get ((genInserts 0 (LatexHashMap.maxSize + 1)).foldl
        (fun m p => LatexHashMap.set m p.1 p.2) []) h).isSome
      ↔ h ∈ ((genInserts 0 (LatexHashMap.maxSize + 1)).map Prod.fst).drop 1 := by
  have hc := claim_C5_capacity_eviction (genInserts 0 (LatexHashMap.maxSize + 1)) 1
    (genInserts_nodup 0 _) (genInserts_ne_empty 0 _) (genInserts_length 0 _)
  exact ⟨genInserts_nodup 0 _, genInserts_ne_empty 0 _, genInserts_length 0 _,
    hc.1, hc.2⟩

/-- Claim C9: calling `set` at capacity with an already-present hash
deletes the oldest entry anyway before re-storing, so the count drops
strictly below capacity and the oldest record stops resolving - unless
the oldest entry was the hash itself. -/
theorem claim_C9_reinsert_at_capacity (m : Store) (k0 hash : String) (entry : LatexEntry)
    (hnd : (m.map Prod.fst).Nodup)
    (hne : ∀ p ∈ m, p.1 ≠ "")
    (hlen : m.length = LatexHashMap.maxSize)
    (hhead : (m.map Prod.fst).head? = some k0)
    (hmem : hash ∈ m.map Prod.fst) :
    (LatexHashMap.set m hash entry).length
        = (if k0 = hash then LatexHashMap.maxSize else LatexHashMap.maxSize - 1) ∧
    LatexHashMap.get (LatexHashMap.set m hash entry) hash = some entry ∧
    (k0 ≠ hash → LatexHashMap.get (LatexHashMap.set m hash entry) k0 = none) := by
  have hms : LatexHashMap.maxSize = 5000 := rfl
  rcases m with _ | ⟨q, s'⟩
  · rw [List.length_nil] at hlen
    omega
  simp only [List.map_cons, List.head?_cons, Option.some.injEq] at hhead
  have hq_notin : q.1 ∉ s'.map Prod.fst := by
    simp only [List.map_cons, List.nodup_cons] at hnd
    exact hnd.1
  have hdel : LatexHashMap.set (q :: s') hash entry = jsMapSet s' hash entry := by
    unfold LatexHashMap.set
    rw [if_pos (by omega)]
    simp only [List.head?_cons]
    rw [if_neg (hne q (by simp)), jsMapDelete_head q s' hq_notin]
  have hlen' : s'.length + 1 = LatexHashMap.maxSize := by simpa using hlen
  have hpresent : q.1 ≠ hash → s'.any (fun p => p.1 == hash) = true := by
    intro hqh
    have hmem' : hash ∈ s'.map Prod.fst := by
      simp only [List.map_cons, List.mem_cons] at hmem
      rcases hmem with h | h
      · exact absurd h.symm hqh
      · exact h
    rw [List.any_eq_true]
    rw [List.mem_map] at hmem'
    obtain ⟨p, hp, hpk⟩ := hmem'
    exact ⟨p, hp, by rw [hpk]; exact beq_self_eq_true hash⟩
  refine ⟨?_, LatexHashMap.get_set_self _ hash entry, ?_⟩
  · by_cases hqh : q.1 = hash
    · rw [hdel, jsMapSet_absent s' hash entry (hqh ▸ hq_notin), ← hhead, if_pos hqh]
      simp only [List.length_append, List.length_cons, List.length_nil]
      omega
    · have hset2 : jsMapSet s' hash entry
          = s'.map (fun p => if p.1 == hash then (hash, entry) else p) := by
        unfold jsMapSet
        rw [if_pos (hpresent hqh)]
      rw [hdel, hset2, ← hhead, if_neg hqh, List.length_map]
      omega
  · intro hk0
    have hqh : q.1 ≠ hash := by
      rw [hhead]
      exact hk0
    have hset2 : jsMapSet s' hash entry
        = s'.map (fun p => if p.1 == hash then (hash, entry) else p) := by
      unfold jsMapSet
      rw [if_pos (hpresent hqh)]
    rw [hdel, hset2]
    unfold LatexHashMap.get jsMapGet
    have hnone : (s'.map (fun p => if p.1 == hash then (hash, entry) else p)).find?
        (fun p => p.1 == k0) = none := by
      rw [List.find?_eq_none]
      intro r hr
      rw [List.mem_map] at hr
      obtain ⟨p, hp, hpe⟩ := hr
      have hpk0 : p.1 ≠ k0 := by
        intro he
        exact hq_notin (hhead ▸ he ▸ List.mem_map_of_mem Prod.fst hp)
      by_cases hph : p.1 = hash
      · have hr2 : r = (hash, entry) := by
          rw [← hpe]
          simp [hph]
        rw [hr2]
        simp only [Bool.not_eq_true, beq_eq_false_iff_ne, ne_eq]
        intro he
        exact hk0 he.symm
      · have hr2 : r = p := by
          rw [← hpe]
          simp [beq_eq_false_iff_ne.mpr hph]
        rw [hr2]
        simp only [Bool.not_eq_true, beq_eq_false_iff_ne, ne_eq]
        exact hpk0
    rw [hnone]
    rfl

/-- Witness for claim C9 at a concrete full store, re-storing the
second-oldest identifier. -/
theorem claim_C9_witness :
    ((genInserts 0 LatexHashMap.maxSize).map Prod.fst).Nodup ∧
    (∀ p ∈ genInserts 0 LatexHashMap.maxSize, p.1 ≠ "") ∧
    (genInserts 0 LatexHashMap.maxSize).length = LatexHashMap.maxSize ∧
    ((genInserts 0 LatexHashMap.maxSize).map Prod.fst).head? = some (natKey 0) ∧
    natKey 1 ∈ (genInserts 0 LatexHashMap.maxSize).map Prod.fst ∧
    (LatexHashMap.set (genInserts 0 LatexHashMap.maxSize) (natKey 1) (mkEntry "y")).length
        = (if natKey 0 = natKey 1 then LatexHashMap.maxSize else LatexHashMap.maxSize - 1) ∧
    LatexHashMap.get (LatexHashMap.set (genInserts 0 LatexHashMap.maxSize) (natKey 1)
        (mkEntry "y")) (natKey 1) = some (mkEntry "y") ∧
    (natKey 0 ≠ natKey 1 → LatexHashMap.get (LatexHashMap.set
        (genInserts 0 LatexHashMap.maxSize) (natKey 1) (mkEntry "y")) (natKey 0) = none) := by
  have hmem : natKey 1 ∈ (genInserts 0 LatexHashMap.maxSize).map Prod.fst :=
    (genInserts_keys_mem 0 LatexHashMap.maxSize (natKey 1)).mpr
      ⟨1, by decide, by rw [Nat.zero_add]⟩
  have hc := claim_C9_reinsert_at_capacity (genInserts 0 LatexHashMap.maxSize) (natKey 0) (natKey 1) (mkEntry "y")
    (genInserts_nodup 0 _) (genInserts_ne_empty 0 _) (genInserts_length 0 _)
    (genInserts_head 0 _ (by decide)) hmem
  exact ⟨genInserts_nodup 0 _, genInserts_ne_empty 0 _, genInserts_length 0 _,
    genInserts_head 0 _ (by decide), hmem, hc.1, hc.2.1, hc.2.2⟩

/-- `lastIndexOf` of an absent character is `-1`. -/
theorem lastIndexOfChar_notMem (l : List Char) (c : Char) (h : c ∉ l) :
    lastIndexOfChar l c = -1 := by
  induction l with
  | nil => rfl
  | cons x xs ih =>
    have hx : x ≠ c := fun he => h (he ▸ List.mem_cons_self x xs)
    have hxs : c ∉ xs := fun hm => h (List.mem_cons_of_mem x hm)
    unfold lastIndexOfChar
    rw [ih hxs]
    simp [hx]

/-- `lastIndexOf` finds the unique occurrence after a clean prefix. -/
theorem lastIndexOfChar_append_cons (l l' : List Char) (c : Char) (h' : c ∉ l') :
    lastIndexOfChar (l ++ c :: l') c = (l.length : Int) := by
  induction l with
  | nil =>
    show lastIndexOfChar (c :: l') c = ((0 : Nat) : Int)
    unfold lastIndexOfChar
    rw [lastIndexOfChar_notMem l' c h']
    simp
  | cons x xs ih =>
    show lastIndexOfChar (x :: (xs ++ c :: l')) c = ((xs.length + 1 : Nat) : Int)
    unfold lastIndexOfChar
    rw [ih]
    have : ((xs.length : Int)) ≠ -1 := by omega
    simp only [this, ne_eq, not_false_eq_true, if_true]
    omega

/-- No `$$` occurrence without any dollar at all. -/
theorem lastIndexOfStr_dollar2_notMem (cs : List Char) (h : '$' ∉ cs) :
    lastIndexOfStr cs ['$', '$'] = -1 := by
  induction cs with
  | nil => rfl
  | cons x xs ih =>
    have hx : x ≠ '$' := fun he => h (he ▸ List.mem_cons_self x xs)
    have hxs : '$' ∉ xs := fun hm => h (List.mem_cons_of_mem x hm)
    unfold lastIndexOfStr
    rw [ih hxs]
    have hpre : (['$', '$'].isPrefixOf (x :: xs)) = false := by
      show (('$' == x) && _) = false
      have : ('$' == x) = false := beq_eq_false_iff_ne.mpr (fun he => hx he.symm)
      rw [this, Bool.false_and]
    simp [hpre]

/-- A single trailing `$` followed by a space contains no `$$`. -/
theorem lastIndexOfStr_dollar2_append (l : List Char) (hl : '$' ∉ l) :
    lastIndexOfStr (l ++ ['$', ' ']) ['$', '$'] = -1 := by
  induction l with
  | nil => decide
  | cons x xs ih =>
    have hx : x ≠ '$' := fun he => hl (he ▸ List.mem_cons_self x xs)
    have hxs : '$' ∉ xs := fun hm => hl (List.mem_cons_of_mem x hm)
    show lastIndexOfStr (x :: (xs ++ ['$', ' '])) ['$', '$'] = -1
    unfold lastIndexOfStr
    rw [ih hxs]
    have hpre : (['$', '$'].isPrefixOf (x :: (xs ++ ['$', ' ']))) = false := by
      show (('$' == x) && _) = false
      have : ('$' == x) = false := beq_eq_false_iff_ne.mpr (fun he => hx he.symm)
      rw [this, Bool.false_and]
    simp [hpre]

/-- Tail detection is the identity on dollar-free text. -/
theorem detectTail_no_dollar (cs : List Char) (h : '$' ∉ cs) :
    detectTail cs = (cs, []) := by
  unfold detectTail
  rw [lastIndexOfChar_notMem cs '$' h, lastIndexOfStr_dollar2_notMem cs h]
  simp

/-- Tail detection never buffers a shell-prompt-shaped tail: a lone
trailing `$` followed by a space is emitted, not held back. -/
theorem detectTail_prompt_tail (l : List Char) (hd : '$' ∉ l) (hn : '\n' ∉ l) :
    detectTail (l ++ ['$', ' ']) = (l ++ ['$', ' '], []) := by
  have h1 : lastIndexOfChar (l ++ ['$', ' ']) '$' = (l.length : Int) :=
    lastIndexOfChar_append_cons l [' '] '$' (by decide)
  have h2 : lastIndexOfStr (l ++ ['$', ' ']) ['$', '$'] = -1 :=
    lastIndexOfStr_dollar2_append l hd
  have h3 : lastIndexOfChar (l ++ ['$', ' ']) '\n' = -1 := by
    apply lastIndexOfChar_notMem
    simp only [List.mem_append, not_or]
    exact ⟨hn, by decide⟩
  have hmax : max ((l.length : Int)) (-1) = (l.length : Int) := by omega
  have hgt : (decide ((l.length : Int) > -1)) = true := by
    simp only [decide_eq_true_eq]
    omega
  have hne : (((l.length : Int)) == -1) = false := by
    rw [beq_eq_false_iff_ne]
    omega
  have hne2 : ((-1 : Int) == ((l.length : Int))) = false := by
    rw [beq_eq_false_iff_ne]
    omega
  have htoNat : ((l.length : Int) + 1).toNat = l.length + 1 := by omega
  have hdrop : (l ++ ['$', ' ']).drop (l.length + 1) = [' '] := by
    have hsplit : l ++ ['$', ' '] = (l ++ ['$']) ++ [' '] := by simp
    rw [hsplit, show l.length + 1 = (l ++ ['$']).length from by simp, List.drop_left]
  unfold detectTail
  rw [h1, h2, h3]
  dsimp only
  rw [hmax]
  simp only [hgt, hne, hne2, Bool.not_false, Bool.and_self, if_true, Bool.true_and,
    if_false, Bool.false_eq_true, htoNat, hdrop]
  simp [jsWhitespace]

/-- A character foreign to the marker alphabet, the filler and the
hash does not occur in an encoded placeholder. -/
theorem char_notMem_placeholder (hash : String) (w : Nat) (c : Char)
    (hc1 : c ≠ '«') (hc2 : c ≠ '»') (hc3 : c ≠ ' ') (hh : c ∉ hash.data) :
    c ∉ (LatexHashMap.formatPlaceholder hash w).data := by
  rw [formatPlaceholder_data]
  intro hmem
  rcases List.mem_cons.mp hmem with h | hmem2
  · exact hc1 h
  rcases List.mem_cons.mp hmem2 with h | hmem3
  · exact hc1 h
  rcases List.mem_append.mp hmem3 with h | hmem4
  · exact hh h
  rcases List.mem_cons.mp hmem4 with h | hmem5
  · exact hc2 h
  · exact hc3 (List.eq_of_mem_replicate hmem5)

/-- The stale guard is the identity on an empty buffer. -/
theorem staleGuard_empty (r : List Char) : staleGuard r [] = (r, []) := rfl

/-- Claim C6 (amended): the shell-prompt-shape guard applies only to
incomplete-tail buffering, not to completed inline candidates.  The
complete candidate `$5$` - even followed immediately by a second `$`
and whitespace - is substituted by a placeholder whenever the render
probe succeeds, and `$x=1$` likewise. -/
theorem claim_C6_amended_prompt_shape_substituted (env : Env) (m : Store)
    (h5 : (env.render "5" false).error = none)
    (hx : (env.render "x=1" false).error = none) :
    (processLatex env "" m "$5$$ ").1
        = LatexHashMap.formatPlaceholder (LatexHashMap.generateHash "5")
            (max ((env.render "5" false).pixelWidth / env.cellWidth - 2) 7) ++ "$ " ∧
    (processLatex env "" m "$x=1$").1
        = LatexHashMap.formatPlaceholder (LatexHashMap.generateHash "x=1")
            (max ((env.render "x=1" false).pixelWidth / env.cellWidth - 2) 7) := by
  constructor
  · have h5' : (env.render (String.mk ['5']) false).error = none := h5
    have hph1 : (inlineReplacement env m ['5']).1
        = (LatexHashMap.formatPlaceholder (LatexHashMap.generateHash "5")
            (max ((env.render "5" false).pixelWidth / env.cellWidth - 2) 7)).data := by
      unfold inlineReplacement
      dsimp only
      have hclean : jsTrim (collapseNL [] (replacePipes ['5'])) = ['5'] := rfl
      rw [hclean, if_neg (by decide), h5']
    have hcore1 : (processLatexCore env "" m "$5$$ ").1
        = (detectTail ((inlineReplacement env m ['5']).1 ++ ['$', ' '])).1 := rfl
    have hcore2 : (processLatexCore env "" m "$5$$ ").2.1
        = (detectTail ((inlineReplacement env m ['5']).1 ++ ['$', ' '])).2 := rfl
    have hnd : '$' ∉ (LatexHashMap.formatPlaceholder (LatexHashMap.generateHash "5")
        (max ((env.render "5" false).pixelWidth / env.cellWidth - 2) 7)).data :=
      char_notMem_placeholder _ _ _ (by decide) (by decide) (by decide) (by decide)
    have hnn : '\n' ∉ (LatexHashMap.formatPlaceholder (LatexHashMap.generateHash "5")
        (max ((env.render "5" false).pixelWidth / env.cellWidth - 2) 7)).data :=
      char_notMem_placeholder _ _ _ (by decide) (by decide) (by decide) (by decide)
    have hdt := detectTail_prompt_tail _ hnd hnn
    show String.mk (staleGuard (processLatexCore env "" m "$5$$ ").1
        (processLatexCore env "" m "$5$$ ").2.1).1 = _
    rw [hcore1, hcore2, hph1, hdt, staleGuard_empty]
    rfl
  · have hx' : (env.render (String.mk ['x', '=', '1']) false).error = none := hx
    have hph1 : (inlineReplacement env m ['x', '=', '1']).1
        = (LatexHashMap.formatPlaceholder (LatexHashMap.generateHash "x=1")
            (max ((env.render "x=1" false).pixelWidth / env.cellWidth - 2) 7)).data := by
      unfold inlineReplacement
      dsimp only
      have hclean : jsTrim (collapseNL [] (replacePipes ['x', '=', '1']))
          = ['x', '=', '1'] := rfl
      rw [hclean, if_neg (by decide), hx']
    have hcore1 : (processLatexCore env "" m "$x=1$").1
        = (detectTail ((inlineReplacement env m ['x', '=', '1']).1 ++ [])).1 := rfl
    have hcore2 : (processLatexCore env "" m "$x=1$").2.1
        = (detectTail ((inlineReplacement env m ['x', '=', '1']).1 ++ [])).2 := rfl
    have hnd : '$' ∉ (LatexHashMap.formatPlaceholder (LatexHashMap.generateHash "x=1")
        (max ((env.render "x=1" false).pixelWidth / env.cellWidth - 2) 7)).data :=
      char_notMem_placeholder _ _ _ (by decide) (by decide) (by decide) (by decide)
    have hdt := detectTail_no_dollar ((inlineReplacement env m ['x', '=', '1']).1 ++ [])
      (by rw [List.append_nil, hph1]; exact hnd)
    show String.mk (staleGuard (processLatexCore env "" m "$x=1$").1
        (processLatexCore env "" m "$x=1$").2.1).1 = _
    rw [hcore1, hcore2, hdt, staleGuard_empty]
    dsimp only
    rw [List.append_nil, hph1]

set_option maxRecDepth 8192 in
/-- Claim C6 counterexample: with a succeeding render probe, the chunk
`"$5$$ "` (candidate `$5$` followed by a second `$` and whitespace) is
substituted with a placeholder, contradicting `never replaced`. -/
theorem claim_C6_counterexample :
    (processLatex env0 "" [] "$5$$ ").1 = "««0035» $ " ∧
    "««0035» $ " ≠ "$5$$ " := by
  refine ⟨by rfl, by decide⟩

/-- Witness for the amended claim C6 at the concrete environment. -/
theorem claim_C6_witness :
    (env0.render "5" false).error = none ∧
    (env0.render "x=1" false).error = none ∧
    (processLatex env0 "" [] "$5$$ ").1
        = LatexHashMap.formatPlaceholder (LatexHashMap.generateHash "5")
            (max ((env0.render "5" false).pixelWidth / env0.cellWidth - 2) 7) ++ "$ " ∧
    (processLatex env0 "" [] "$x=1$").1
        = LatexHashMap.formatPlaceholder (LatexHashMap.generateHash "x=1")
            (max ((env0.render "x=1" false).pixelWidth / env0.cellWidth - 2) 7) := by
  have hc := claim_C6_amended_prompt_shape_substituted env0 [] rfl rfl
  exact ⟨rfl, rfl, hc.1, hc.2⟩
